import Mathlib

/-!
Verification of the muDB storage server against its specification.

The development shallowly embeds the Rust sources:
* `src/resp/types.rs` — the RESP value model (`RespType`), its byte encoder
  (`to_bytes`) and the parsing helpers (`new_bulk_string`, `parse_array_len`,
  `parse_bulk_string_len`, `read_till_crlf`, `parse_usize_from_buf`);
* `src/resp/frame.rs` — the streaming command-frame decoder
  (`RespCommandFrame::decode` with its `CommandBuilder` accumulator);
* `src/storage/db.rs` and `src/storage/mod.rs` — the storage engine
  (`DB::get`, `DB::set`, `DB::lpush`, `DB::rpush`, `DB::lrange`,
  `DB::round_list_index`, `DB::round_list_indices`, `DBError`);
* `src/command/*.rs` — the pieces of the command layer the claims touch
  (`Get::apply`, `LPush::with_args`).

Rust `String` values are modelled as Lean `String`; their wire form is the
UTF-8 byte sequence, modelled explicitly (`strBytes`, `utf8Decode`), because
several properties hinge on the distinction between a string's character
count and its byte count.  Machine integers are modelled as `Nat`/`Int`;
the single place where an `as usize` cast of a possibly-negative value
occurs in the source is modelled with an explicit wrap (`intAsUsize`).
-/

namespace MuDB

/-! ## UTF-8 model

Rust strings are always valid UTF-8.  `utf8EncodeChar` is the standard UTF-8
encoding of one Unicode scalar value; `strBytes` gives the byte form of a
string (what `String::into_bytes` / `as_bytes` produce in the source).
`utf8Decode` models `String::from_utf8`: it accepts exactly the valid UTF-8
byte sequences (rejecting truncated sequences, stray continuation bytes,
overlong forms and surrogate code points) and returns the decoded characters.
-/

/-- Standard UTF-8 encoding of a single Unicode scalar value. -/
def utf8EncodeChar (c : Char) : List Nat :=
  let n := c.toNat
  if n < 128 then [n]
  else if n < 2048 then [192 + n / 64, 128 + n % 64]
  else if n < 65536 then [224 + n / 4096, 128 + (n / 64) % 64, 128 + n % 64]
  else [240 + n / 262144, 128 + (n / 4096) % 64, 128 + (n / 64) % 64, 128 + n % 64]

/-- The UTF-8 bytes of a string: what the Rust source's `as_bytes`
and `into_bytes` produce. -/
def strBytes (s : String) : List Nat :=
  (s.data.map utf8EncodeChar).flatten

/-- Validating UTF-8 decoder, fuel-indexed so that it is structurally
recursive (each decoded character consumes at least one byte, so fuel equal
to the byte count always suffices; see `utf8Decode`). -/
def utf8DecodeAux : Nat → List Nat → Option (List Char)
  | _, [] => some []
  | 0, _ :: _ => none
  | fuel + 1, b0 :: rest =>
    if b0 < 128 then
      (utf8DecodeAux fuel rest).map (fun cs => Char.ofNat b0 :: cs)
    else if b0 < 194 then none
    else if b0 < 224 then
      match rest with
      | b1 :: rest2 =>
        if 128 ≤ b1 ∧ b1 < 192 then
          (utf8DecodeAux fuel rest2).map (fun cs =>
            Char.ofNat ((b0 - 192) * 64 + (b1 - 128)) :: cs)
        else none
      | [] => none
    else if b0 < 240 then
      match rest with
      | b1 :: b2 :: rest3 =>
        if (128 ≤ b1 ∧ b1 < 192) ∧ (128 ≤ b2 ∧ b2 < 192)
            ∧ (b0 ≠ 224 ∨ 160 ≤ b1) ∧ (b0 ≠ 237 ∨ b1 < 160) then
          (utf8DecodeAux fuel rest3).map (fun cs =>
            Char.ofNat ((b0 - 224) * 4096 + (b1 - 128) * 64 + (b2 - 128)) :: cs)
        else none
      | _ => none
    else if b0 < 245 then
      match rest with
      | b1 :: b2 :: b3 :: rest4 =>
        if (128 ≤ b1 ∧ b1 < 192) ∧ (128 ≤ b2 ∧ b2 < 192) ∧ (128 ≤ b3 ∧ b3 < 192)
            ∧ (b0 ≠ 240 ∨ 144 ≤ b1) ∧ (b0 ≠ 244 ∨ b1 < 144) then
          (utf8DecodeAux fuel rest4).map (fun cs =>
            Char.ofNat ((b0 - 240) * 262144 + (b1 - 128) * 4096
              + (b2 - 128) * 64 + (b3 - 128)) :: cs)
        else none
      | _ => none
    else none

/-- Models `String::from_utf8` from the source: decodes a byte list into the
character list of a string, failing on invalid UTF-8. -/
def utf8Decode (l : List Nat) : Option (List Char) :=
  utf8DecodeAux l.length l

/-! ## Decimal formatting and parsing -/

/-- Fuel-indexed decimal formatter (big-endian digit bytes); fuel larger than
the value always suffices. -/
def natToDecimalAux : Nat → Nat → List Nat
  | 0, _ => []
  | fuel + 1, n =>
    if n < 10 then [48 + n]
    else natToDecimalAux fuel (n / 10) ++ [48 + n % 10]

/-- The ASCII decimal digits of a natural number: models Rust's
`format` of a `usize` (`Display for usize`). -/
def natToDecimal (n : Nat) : List Nat :=
  natToDecimalAux (n + 1) n

/-- The ASCII decimal digits of a signed integer: models Rust's
`format` of an `i64` (a leading minus sign for negative values). -/
def intToDecimal (i : Int) : List Nat :=
  if i < 0 then 45 :: natToDecimal i.natAbs else natToDecimal i.toNat

/-- ASCII digit test. -/
def isDigitByte (b : Nat) : Bool :=
  decide (48 ≤ b ∧ b ≤ 57)

/-- Value of a big-endian ASCII digit string. -/
def digitsVal (l : List Nat) : Nat :=
  l.foldl (fun acc b => acc * 10 + (b - 48)) 0

/-! ## RESP errors and parsing primitives (src/resp/mod.rs, src/resp/types.rs) -/

/-- Models `RespError` from `src/resp/mod.rs`. -/
inductive RespError where
  | InvalidBulkString (msg : String)
  | InvalidSimpleString (msg : String)
  | InvalidArray (msg : String)
  | Other (msg : String)
deriving DecidableEq

/-- Models `RespType::parse_usize_from_buf`: UTF-8 decode the bytes and parse
them with `str::parse::<usize>`.  Rust's parser accepts an optional leading
plus sign before a nonempty run of ASCII digits; `usize` overflow (inputs of
twenty decimal digits, beyond any buffer arising here) is not modelled, and
the distinct error message for non-UTF-8 input is collapsed into the integer
parse error (no claim inspects these message strings). -/
def parse_usize_from_buf (buf : List Nat) : Except RespError Nat :=
  let digits := if buf.head? = some 43 then buf.tail else buf
  if digits ≠ [] ∧ digits.all isDigitByte then .ok (digitsVal digits)
  else .error (.Other "Invalid value for an integer")

/-- Models `RespType::read_till_crlf`: scan for the first CR LF byte pair,
returning the bytes before it and the count of bytes read through the pair. -/
def read_till_crlf : List Nat → Option (List Nat × Nat)
  | [] => none
  | [_] => none
  | a :: b :: rest =>
    if a = 13 ∧ b = 10 then some ([], 2)
    else
      match read_till_crlf (b :: rest) with
      | some (s, n) => some (a :: s, n + 1)
      | none => none

/-- Models `RespType` from `src/resp/types.rs`. -/
inductive RespType where
  | SimpleString (s : String)
  | BulkString (s : String)
  | NullBulkString
  | Array (arr : List RespType)
  | SimpleError (s : String)
  | Integer (i : Int)

mutual

/-- Models `RespType::to_bytes`.  Note the `BulkString` arm: the source
computes the length header from `bs.chars().count()` — the CHARACTER count
(`s.length` here) — not the UTF-8 byte count. -/
def RespType.to_bytes : RespType → List Nat
  | .SimpleString ss => 43 :: (strBytes ss ++ [13, 10])
  | .BulkString bs =>
      36 :: (natToDecimal bs.length ++ [13, 10] ++ strBytes bs ++ [13, 10])
  | .NullBulkString => [36, 45, 49, 13, 10]
  | .Array arr => 42 :: (natToDecimal arr.length ++ [13, 10] ++ RespType.to_bytes_list arr)
  | .SimpleError es => 45 :: (strBytes es ++ [13, 10])
  | .Integer i => 58 :: (intToDecimal i ++ [13, 10])

/-- Concatenated encodings of a list of RESP values (the `for_each` extend
loop in the `Array` arm of `to_bytes`). -/
def RespType.to_bytes_list : List RespType → List Nat
  | [] => []
  | v :: vs => RespType.to_bytes v ++ RespType.to_bytes_list vs

end

/-- Models `RespType::new_bulk_string`.  The source slices `buffer` from
index 1 (`&buffer[1..]`, skipping the `$` identifier byte), reads the length
line, then takes exactly that many payload bytes and UTF-8 decodes them.
(The source would panic on an empty buffer; its only caller guards with a
nonempty check, and the model's `drop 1` is empty there, yielding the same
error as a missing CRLF.) -/
def new_bulk_string (buffer : List Nat) : Except RespError (RespType × Nat) :=
  match read_till_crlf (buffer.drop 1) with
  | none => .error (.InvalidBulkString "Invalid value for bulk string")
  | some (bufData, len) =>
    match parse_usize_from_buf bufData with
    | .error e => .error e
    | .ok bulkstrLen =>
      let bytesConsumed := len + 1
      let bulkstrEndIdx := bytesConsumed + bulkstrLen
      if buffer.length ≤ bulkstrEndIdx then
        .error (.InvalidBulkString "Invalid value for bulk string length")
      else
        match utf8Decode ((buffer.drop bytesConsumed).take bulkstrLen) with
        | some cs => .ok (.BulkString ⟨cs⟩, bulkstrEndIdx + 2)
        | none => .error (.InvalidBulkString "Bulk string value is not a valid UTF-8 string")

/-- Models `RespType::new_simple_string`. -/
def new_simple_string (buffer : List Nat) : Except RespError (RespType × Nat) :=
  match read_till_crlf (buffer.drop 1) with
  | none => .error (.InvalidSimpleString "Invalid value for simple string")
  | some (bufData, len) =>
    match utf8Decode bufData with
    | some cs => .ok (.SimpleString ⟨cs⟩, len + 1)
    | none => .error (.InvalidSimpleString "Simple string value is not a valid UTF-8 string")

/-- Models `RespType::parse_array_len`: read the first CRLF-terminated line;
`Ok none` when no CRLF is in the buffer yet (need more data); an error unless
the line is at least four bytes and starts with the `*` identifier; otherwise
parse the element count.  (When `bytes_read ≥ 4` the prefix is nonempty, so
the empty-prefix arm below is unreachable; it carries the same error.) -/
def parse_array_len (src : List Nat) : Except RespError (Option (Nat × Nat)) :=
  match read_till_crlf src with
  | none => .ok none
  | some (arrayHeaderBytes, bytesRead) =>
    if bytesRead < 4 then .error (.InvalidArray "Not a valid RESP array")
    else
      match arrayHeaderBytes with
      | [] => .error (.InvalidArray "Not a valid RESP array")
      | c :: rest =>
        if c ≠ 42 then .error (.InvalidArray "Not a valid RESP array")
        else
          match parse_usize_from_buf rest with
          | .ok len => .ok (some (len, bytesRead))
          | .error e => .error e

/-- Models `RespType::parse_bulk_string_len`: same shape as
`parse_array_len` with the `$` identifier. -/
def parse_bulk_string_len (src : List Nat) : Except RespError (Option (Nat × Nat)) :=
  match read_till_crlf src with
  | none => .ok none
  | some (bulkstrHeaderBytes, bytesRead) =>
    if bytesRead < 4 then .error (.InvalidBulkString "Not a valid RESP bulk string")
    else
      match bulkstrHeaderBytes with
      | [] => .error (.InvalidBulkString "Not a valid RESP bulk string")
      | c :: rest =>
        if c ≠ 36 then .error (.InvalidBulkString "Not a valid RESP bulk string")
        else
          match parse_usize_from_buf rest with
          | .ok len => .ok (some (len, bytesRead))
          | .error e => .error e

/-! ## Streaming command-frame decoder (src/resp/frame.rs) -/

/-- Models `CommandBuilder` from `src/resp/frame.rs`. -/
structure CommandBuilder where
  parts : List RespType
  num_parts : Nat
  parts_parsed : Nat

/-- Models `CommandBuilder::new`. -/
def CommandBuilder.new (numParts : Nat) : CommandBuilder :=
  ⟨[], numParts, 0⟩

/-- Models `CommandBuilder::add_part`. -/
def CommandBuilder.add_part (cb : CommandBuilder) (part : RespType) : CommandBuilder :=
  ⟨cb.parts ++ [part], cb.num_parts, cb.parts_parsed + 1⟩

/-- Models `CommandBuilder::all_parts_received`. -/
def CommandBuilder.all_parts_received (cb : CommandBuilder) : Bool :=
  cb.num_parts == cb.parts_parsed

/-- Models `CommandBuilder::build`. -/
def CommandBuilder.build (cb : CommandBuilder) : List RespType :=
  cb.parts

/-- The `while !src.is_empty()` loop of `RespCommandFrame::decode`, fuel-indexed
so that it is structurally recursive.  Every iteration that loops again has
consumed at least one byte of `src` (a parsed bulk string spans at least five
bytes), so fuel equal to the buffer length always suffices; `decode` passes
exactly that, and on empty buffers the zero-fuel arm agrees with the loop exit.
The result triple is (emitted frame if complete, command builder to carry to
the next call, remaining unconsumed buffer). -/
def decodeLoopAux : Nat → CommandBuilder → List Nat →
    Except RespError (Option (List RespType) × Option CommandBuilder × List Nat)
  | _, cb, [] => .ok (none, some cb, [])
  | 0, cb, src => .ok (none, some cb, src)
  | fuel + 1, cb, b :: bs =>
    match parse_bulk_string_len (b :: bs) with
    | .error e => .error e
    | .ok none => .ok (none, some cb, b :: bs)
    | .ok (some (bulkstrLen, bytesRead)) =>
      if (b :: bs).length < bulkstrLen + bytesRead + 2 then .ok (none, some cb, b :: bs)
      else
        match new_bulk_string (b :: bs) with
        | .error e => .error e
        | .ok (bulkstr, bytesRead2) =>
          let cb2 := cb.add_part bulkstr
          let src2 := (b :: bs).drop bytesRead2
          if cb2.all_parts_received then .ok (some cb2.build, none, src2)
          else decodeLoopAux fuel cb2 src2

/-- Models `RespCommandFrame::decode` (`Decoder::decode` in frame.rs).  The
mutable codec state (`cmd_builder`) and the mutable byte buffer (`src`) are
passed and returned explicitly: the result is
`(frame emitted this call, state for the next call, unconsumed bytes)`.
The caller (tokio's `Framed`) keeps the unconsumed bytes and appends newly
arrived bytes to them before the next call.  The `std::io::Error` wrapper
around `FrameError`/`RespError` is dropped: errors carry the `RespError`. -/
def decode (cmdBuilder : Option CommandBuilder) (src : List Nat) :
    Except RespError (Option (List RespType) × Option CommandBuilder × List Nat) :=
  match cmdBuilder with
  | none =>
    match parse_array_len src with
    | .error e => .error e
    | .ok none => .ok (none, none, src)
    | .ok (some (cmdLen, bytesRead)) =>
      decodeLoopAux src.length (CommandBuilder.new cmdLen) (src.drop bytesRead)
  | some cb => decodeLoopAux src.length cb src

/-- The wire form of one bulk string per the protocol grammar (spec §6 and the
format comment inside `RespCommandFrame::decode`): a dollar sign, the decimal
BYTE length, CRLF, the payload bytes, CRLF.  This is the form the decoder
expects; `RespType.to_bytes` deviates from it on non-ASCII payloads (its
length header counts characters). -/
def bulkStringWire (s : String) : List Nat :=
  36 :: (natToDecimal (strBytes s).length ++ [13, 10] ++ strBytes s ++ [13, 10])

/-- The wire form of a whole command frame (an array of bulk strings) per the
protocol grammar: the `*`-tagged element count line followed by each
element's bulk-string wire form. -/
def encodeCommandFrame (parts : List String) : List Nat :=
  42 :: (natToDecimal parts.length ++ [13, 10] ++ (parts.map bulkStringWire).flatten)

/-! ## Storage engine (src/storage/db.rs, src/storage/mod.rs) -/

/-- Models `Value` from `src/storage/db.rs` (a `VecDeque` is modelled as a
Lean list, front at the head). -/
inductive Value where
  | String (s : String)
  | List (l : List String)
deriving DecidableEq

/-- Models `Entry` from `src/storage/db.rs`. -/
structure Entry where
  value : Value
deriving DecidableEq

/-- Models `Entry::new`. -/
def Entry.new (value : Value) : Entry :=
  ⟨value⟩

/-- Models `DBError` from `src/storage/mod.rs`. -/
inductive DBError where
  | WrongType
  | Other (msg : String)
deriving DecidableEq

/-- Models the `Display` implementation for `DBError` in `src/storage/mod.rs`. -/
def DBError.toMessage : DBError → String
  | .WrongType => "WRONGTYPE Operation against a key holding the wrong kind of value"
  | .Other msg => msg

/-- The key-to-entry map inside the `RwLock` of `DB` (a `HashMap` is modelled
extensionally as a function). -/
def Store : Type :=
  String → Option Entry

/-- `HashMap::insert`. -/
def storeInsert (m : Store) (k : String) (e : Entry) : Store :=
  fun k2 => if k2 = k then some e else m k2

/-- The empty map a fresh `DB::new` holds. -/
def emptyStore : Store :=
  fun _ => none

/-- Models `DB::get`.  Acquiring the `RwLock` is modelled as always
succeeding (the poisoned-lock arm is reachable only after a panic, which is
outside this embedding).  The store is threaded through every operation;
`get` holds only a read lock, so it returns the store it was given. -/
def DB.get (k : String) (m : Store) : Except DBError (Option String) × Store :=
  match m k with
  | none => (.ok none, m)
  | some entry =>
    match entry.value with
    | .String s => (.ok (some s), m)
    | _ => (.error .WrongType, m)

/-- Models `DB::set`: a type check against an existing entry, then
`HashMap::insert` of the new entry.  On the type-mismatch path the map is
returned untouched, mirroring the early `return` before any write. -/
def DB.set (k : String) (v : Value) (m : Store) : Except DBError Unit × Store :=
  match m k with
  | some entry =>
    match entry.value with
    | .String _ => (.ok (), storeInsert m k (Entry.new v))
    | _ => (.error .WrongType, m)
  | none => (.ok (), storeInsert m k (Entry.new v))

/-- Models `DB::lpush`.  On an existing list the source runs
`for each in v { l.push_front(each) }`, modelled by the fold below; on an
absent key it stores `VecDeque::from(v)`, i.e. `v` itself in the given
order (no `push_front` happens on that path). -/
def DB.lpush (k : String) (v : List String) (m : Store) : Except DBError Nat × Store :=
  match m k with
  | some entry =>
    match entry.value with
    | .List l =>
      let l2 := v.foldl (fun acc x => x :: acc) l
      (.ok l2.length, storeInsert m k (Entry.new (.List l2)))
    | _ => (.error .WrongType, m)
  | none =>
    (.ok v.length, storeInsert m k (Entry.new (.List v)))

/-- Models `DB::rpush`: as `lpush` with `push_back`. -/
def DB.rpush (k : String) (v : List String) (m : Store) : Except DBError Nat × Store :=
  match m k with
  | some entry =>
    match entry.value with
    | .List l =>
      let l2 := v.foldl (fun acc x => acc ++ [x]) l
      (.ok l2.length, storeInsert m k (Entry.new (.List l2)))
    | _ => (.error .WrongType, m)
  | none =>
    (.ok v.length, storeInsert m k (Entry.new (.List v)))

/-- A Rust `as usize` cast of an `i64`, two's-complement wrap. -/
def intAsUsize (i : Int) : Nat :=
  (i % (2 ^ 64)).toNat

/-- Models `DB::round_list_index`.  `idx.abs()` is modelled as `Int.natAbs`
(matching `i64::abs` everywhere except the release-mode wrap at the minimum
`i64`, where both the wrapped computation and this model fall into the
clamp-to-zero arm).  The `as usize` casts keep Rust's wrapping semantics via
`intAsUsize`; in particular for `list_len = 0` the `(list_len - 1) as usize`
cast wraps to `2 ^ 64 - 1` exactly as in Rust. -/
def DB.round_list_index (list_len idx : Int) : Nat :=
  if idx < 0 then
    let idx2 := list_len - (idx.natAbs : Int)
    if idx2 < 0 then 0 else intAsUsize idx2
  else if list_len ≤ idx then intAsUsize (list_len - 1)
  else intAsUsize idx

/-- Models `DB::round_list_indices`: raw `stop < start` short-circuits to the
empty window `(0, 0)`; otherwise each index is rounded independently and the
half-open window for `VecDeque::range` is produced. -/
def DB.round_list_indices (list_len start_idx stop_idx : Int) : Nat × Nat :=
  if stop_idx < start_idx then (0, 0)
  else
    let roundedStart := DB.round_list_index list_len start_idx
    let roundedStop := DB.round_list_index list_len stop_idx
    if roundedStart < roundedStop then (roundedStart, roundedStop + 1)
    else if roundedStop < roundedStart then (0, 0)
    else (roundedStart, roundedStart + 1)

/-- Models `DB::lrange`.  `l.range(a..b)` is modelled as `(l.drop a).take
(b - a)`; `VecDeque::range` would panic when `b` exceeds the length or
`a > b`, which never happens for the windows `round_list_indices` produces
on a nonempty list (`a ≤ b ≤ len`), the only calls the engine makes. -/
def DB.lrange (k : String) (start_idx stop_idx : Int) (m : Store) :
    Except DBError (List String) × Store :=
  match m k with
  | none => (.ok [], m)
  | some entry =>
    match entry.value with
    | .List l =>
      let p := DB.round_list_indices (l.length : Int) start_idx stop_idx
      (.ok ((l.drop p.1).take (p.2 - p.1)), m)
    | _ => (.error .WrongType, m)

/-! ## Command layer (src/command) -/

/-- Models `CommandError` from `src/command/mod.rs` (the unknown-command
payload struct is inlined to its single string field). -/
inductive CommandError where
  | InvalidFormat
  | UnknownCommand (cmd : String)
  | Other (msg : String)
deriving DecidableEq

/-- The argument-collection loop shared by `LPush::with_args` and
`RPush::with_args`: every remaining argument must be a `BulkString`, and the
loop stops with an error at the first that is not. -/
def parseBulkStringValues : List RespType → Except CommandError (List String)
  | [] => .ok []
  | .BulkString v :: rest =>
    match parseBulkStringValues rest with
    | .ok vs => .ok (v :: vs)
    | .error e => .error e
  | _ :: _ => .error (.Other "Invalid argument. Value must be a bulk string")

/-- Models the `LPush` command struct from `src/command/lpush.rs`. -/
structure LPush where
  key : String
  values : List String
deriving DecidableEq

/-- Models `LPush::with_args`: at least two arguments (a key and one or more
values), the key a bulk string, every value a bulk string.  (The final arm is
unreachable: an empty argument list fails the arity check first.) -/
def LPush.with_args (args : List RespType) : Except CommandError LPush :=
  if args.length < 2 then
    .error (.Other "Wrong number of arguments specified for 'LPUSH' command")
  else
    match args with
    | .BulkString k :: rest =>
      match parseBulkStringValues rest with
      | .ok values => .ok ⟨k, values⟩
      | .error e => .error e
    | _ :: _ => .error (.Other "Invalid argument. Key must be a bulk string")
    | [] => .error (.Other "Wrong number of arguments specified for 'LPUSH' command")

/-- Models `Get::apply` from `src/command/get.rs`: a found value becomes a
`BulkString`, a missing key a `NullBulkString`, an engine error a
`SimpleError` carrying the `Display` form of the `DBError`.  The store is
threaded alongside, as in the engine model. -/
def Get.apply (key : String) (m : Store) : RespType × Store :=
  match DB.get key m with
  | (.ok (some s), m2) => (.BulkString s, m2)
  | (.ok none, m2) => (.NullBulkString, m2)
  | (.error e, m2) => (.SimpleError (DBError.toMessage e), m2)

/-! ## Spec-side definitions and reachable stores -/

/-- Claim-side index rounding, written from the words of claim C4: a negative
index `i` maps to `L - |i|`, clamped to 0 if still negative; an index at
least `L` maps to `L - 1`; others stand.  To be compared with
`DB.round_list_index`. -/
def roundIndexSpec (L : Nat) (i : Int) : Nat :=
  if i < 0 then
    let j := (L : Int) - (i.natAbs : Int)
    if j < 0 then 0 else j.toNat
  else if (L : Int) ≤ i then L - 1
  else i.toNat

/-- Claim-side list-range result, written from the words of claim C4: empty
when raw `E < S`; otherwise round both ends independently and return the
inclusive slice, the empty sequence, or the singleton according to how the
rounded ends compare.  To be compared with `DB.lrange`. -/
def lrangeSpecSlice (l : List String) (S E : Int) : List String :=
  if E < S then []
  else
    let rs := roundIndexSpec l.length S
    let re := roundIndexSpec l.length E
    if rs < re then (l.drop rs).take (re - rs + 1)
    else if re < rs then []
    else (l.drop rs).take 1

/-- The stores reachable through the storage engine as driven by the command
layer, starting from the empty map of `DB::new`.  `Set::apply` only ever
passes `Value::String` to `DB::set`; `LPush::with_args` / `RPush::with_args`
only produce nonempty value vectors (their arity check demands a key plus at
least one value), hence the side conditions on the constructors. -/
inductive Reachable : Store → Prop where
  | empty : Reachable emptyStore
  | set (m : Store) (k s : String) : Reachable m → Reachable (DB.set k (.String s) m).2
  | lpush (m : Store) (k : String) (vs : List String) :
      vs ≠ [] → Reachable m → Reachable (DB.lpush k vs m).2
  | rpush (m : Store) (k : String) (vs : List String) :
      vs ≠ [] → Reachable m → Reachable (DB.rpush k vs m).2
  | get (m : Store) (k : String) : Reachable m → Reachable (DB.get k m).2
  | lrange (m : Store) (k : String) (a b : Int) :
      Reachable m → Reachable (DB.lrange k a b m).2


/-! ## Basic lemmas: decimal digits, CRLF scanning, UTF-8 round trip -/

theorem natToDecimalAux_mem (fuel : Nat) :
    ∀ n, n < fuel → ∀ b ∈ natToDecimalAux fuel n, 48 ≤ b ∧ b ≤ 57 := by
  induction fuel with
  | zero => intro n h; omega
  | succ f ih =>
    intro n h b hb
    simp only [natToDecimalAux] at hb
    by_cases hn : n < 10
    · rw [if_pos hn] at hb
      simp only [List.mem_singleton] at hb
      omega
    · rw [if_neg hn] at hb
      rcases List.mem_append.mp hb with hb | hb
      · exact ih (n / 10) (by omega) b hb
      · simp only [List.mem_singleton] at hb
        omega

theorem natToDecimal_mem (n : Nat) : ∀ b ∈ natToDecimal n, 48 ≤ b ∧ b ≤ 57 :=
  natToDecimalAux_mem (n + 1) n (by omega)

theorem natToDecimalAux_ne_nil (fuel n : Nat) (h : n < fuel) :
    natToDecimalAux fuel n ≠ [] := by
  cases fuel with
  | zero => omega
  | succ f =>
    simp only [natToDecimalAux]
    by_cases hn : n < 10
    · rw [if_pos hn]; simp
    · rw [if_neg hn]; simp

theorem natToDecimal_ne_nil (n : Nat) : natToDecimal n ≠ [] :=
  natToDecimalAux_ne_nil (n + 1) n (by omega)

theorem digitsVal_append_singleton (l : List Nat) (b : Nat) :
    digitsVal (l ++ [b]) = digitsVal l * 10 + (b - 48) := by
  simp [digitsVal, List.foldl_append]

theorem natToDecimalAux_val (fuel : Nat) :
    ∀ n, n < fuel → digitsVal (natToDecimalAux fuel n) = n := by
  induction fuel with
  | zero => intro n h; omega
  | succ f ih =>
    intro n h
    simp only [natToDecimalAux]
    by_cases hn : n < 10
    · rw [if_pos hn]
      simp only [digitsVal, List.foldl_cons, List.foldl_nil]
      omega
    · rw [if_neg hn, digitsVal_append_singleton, ih (n / 10) (by omega)]
      omega

theorem natToDecimal_val (n : Nat) : digitsVal (natToDecimal n) = n :=
  natToDecimalAux_val (n + 1) n (by omega)

theorem parse_usize_from_buf_digits (l : List Nat)
    (hne : l ≠ []) (hd : ∀ b ∈ l, 48 ≤ b ∧ b ≤ 57) :
    parse_usize_from_buf l = .ok (digitsVal l) := by
  obtain ⟨b, t, rfl⟩ := List.exists_cons_of_ne_nil hne
  have hb := hd b (List.mem_cons_self _ _)
  have h43 : ¬ ((b :: t).head? = some 43) := by
    simp only [List.head?_cons, Option.some.injEq]
    omega
  have hall : b :: t ≠ [] ∧ (b :: t).all isDigitByte = true := by
    refine ⟨by simp, ?_⟩
    rw [List.all_eq_true]
    intro x hx
    have := hd x hx
    simp only [isDigitByte, decide_eq_true_eq]
    omega
  simp only [parse_usize_from_buf, if_neg h43, if_pos hall]

theorem parse_usize_from_buf_natToDecimal (n : Nat) :
    parse_usize_from_buf (natToDecimal n) = .ok n := by
  rw [parse_usize_from_buf_digits _ (natToDecimal_ne_nil n) (natToDecimal_mem n),
    natToDecimal_val]

theorem read_till_crlf_clean (pre X : List Nat) (h : ∀ b ∈ pre, b ≠ 13) :
    read_till_crlf (pre ++ 13 :: 10 :: X) = some (pre, pre.length + 2) := by
  induction pre with
  | nil => simp [read_till_crlf]
  | cons p ps ih =>
    have hp : p ≠ 13 := h p (List.mem_cons_self _ _)
    have hps : ∀ b ∈ ps, b ≠ 13 := fun b hb => h b (List.mem_cons_of_mem _ hb)
    cases ps with
    | nil =>
      simp only [List.nil_append, List.cons_append]
      simp only [read_till_crlf]
      rw [if_neg (by omega)]
      simp [read_till_crlf]
    | cons q qs =>
      simp only [List.cons_append]
      simp only [read_till_crlf]
      rw [if_neg (fun hc => hp hc.1)]
      have hih := ih hps
      simp only [List.cons_append] at hih
      rw [hih]
      simp only [Option.some.injEq, Prod.mk.injEq, List.length_cons]

theorem read_till_crlf_none_no_cr (l : List Nat) (h : ∀ b ∈ l, b ≠ 13) :
    read_till_crlf l = none := by
  induction l with
  | nil => rfl
  | cons a t ih =>
    have ha : a ≠ 13 := h a (List.mem_cons_self _ _)
    have ht : ∀ x ∈ t, x ≠ 13 := fun x hx => h x (List.mem_cons_of_mem _ hx)
    cases t with
    | nil => rfl
    | cons b t2 =>
      simp only [read_till_crlf]
      rw [if_neg (fun hc => ha hc.1), ih ht]

theorem read_till_crlf_none_snoc_cr (l : List Nat) (h : ∀ b ∈ l, b ≠ 13) :
    read_till_crlf (l ++ [13]) = none := by
  induction l with
  | nil => rfl
  | cons a t ih =>
    have ha : a ≠ 13 := h a (List.mem_cons_self _ _)
    have ht : ∀ x ∈ t, x ≠ 13 := fun x hx => h x (List.mem_cons_of_mem _ hx)
    cases t with
    | nil =>
      simp only [List.nil_append, List.cons_append]
      simp only [read_till_crlf]
      rw [if_neg (by omega)]
    | cons b t2 =>
      simp only [List.cons_append]
      simp only [read_till_crlf]
      rw [if_neg (fun hc => ha hc.1)]
      have hih := ih ht
      simp only [List.cons_append] at hih
      rw [hih]

theorem char_valid_nat (c : Char) :
    c.toNat < 55296 ∨ (57343 < c.toNat ∧ c.toNat < 1114112) := by
  have h := c.valid
  simp only [UInt32.isValidChar, Nat.isValidChar] at h
  exact h

theorem utf8EncodeChar_length_pos (c : Char) : 0 < (utf8EncodeChar c).length := by
  simp only [utf8EncodeChar]
  split
  · simp
  · split
    · simp
    · split <;> simp

theorem utf8DecodeAux_encodeChar (c : Char) (rest : List Nat) (fuel : Nat) :
    utf8DecodeAux (fuel + 1) (utf8EncodeChar c ++ rest) =
      (utf8DecodeAux fuel rest).map (fun cs => c :: cs) := by
  have hv := char_valid_nat c
  have hofn : Char.ofNat c.toNat = c := Char.ofNat_toNat c
  by_cases h1 : c.toNat < 128
  · have henc : utf8EncodeChar c = [c.toNat] := by
      simp only [utf8EncodeChar, if_pos h1]
    rw [henc]
    simp only [List.cons_append, List.nil_append]
    simp only [utf8DecodeAux]
    rw [if_pos h1]
    simp only [hofn]
  · by_cases h2 : c.toNat < 2048
    · have henc : utf8EncodeChar c = [192 + c.toNat / 64, 128 + c.toNat % 64] := by
        simp only [utf8EncodeChar, if_neg h1, if_pos h2]
      rw [henc]
      simp only [List.cons_append, List.nil_append]
      simp only [utf8DecodeAux]
      rw [if_neg (by omega), if_neg (by omega), if_pos (by omega), if_pos (by omega)]
      have harg : (192 + c.toNat / 64 - 192) * 64 + (128 + c.toNat % 64 - 128) = c.toNat := by
        omega
      simp only [harg, hofn]
    · by_cases h3 : c.toNat < 65536
      · have henc : utf8EncodeChar c =
            [224 + c.toNat / 4096, 128 + c.toNat / 64 % 64, 128 + c.toNat % 64] := by
          simp only [utf8EncodeChar, if_neg h1, if_neg h2, if_pos h3]
        rw [henc]
        simp only [List.cons_append, List.nil_append]
        simp only [utf8DecodeAux]
        rw [if_neg (by omega), if_neg (by omega), if_neg (by omega), if_pos (by omega),
          if_pos (by omega)]
        have harg : (224 + c.toNat / 4096 - 224) * 4096 + (128 + c.toNat / 64 % 64 - 128) * 64
            + (128 + c.toNat % 64 - 128) = c.toNat := by
          omega
        simp only [harg, hofn]
      · have henc : utf8EncodeChar c =
            [240 + c.toNat / 262144, 128 + c.toNat / 4096 % 64,
              128 + c.toNat / 64 % 64, 128 + c.toNat % 64] := by
          simp only [utf8EncodeChar, if_neg h1, if_neg h2, if_neg h3]
        rw [henc]
        simp only [List.cons_append, List.nil_append]
        simp only [utf8DecodeAux]
        rw [if_neg (by omega), if_neg (by omega), if_neg (by omega), if_neg (by omega),
          if_pos (by omega), if_pos (by omega)]
        have harg : (240 + c.toNat / 262144 - 240) * 262144
            + (128 + c.toNat / 4096 % 64 - 128) * 4096
            + (128 + c.toNat / 64 % 64 - 128) * 64 + (128 + c.toNat % 64 - 128) = c.toNat := by
          omega
        simp only [harg, hofn]

theorem utf8DecodeAux_flatten (cs : List Char) :
    ∀ fuel, ((cs.map utf8EncodeChar).flatten).length ≤ fuel →
      utf8DecodeAux fuel ((cs.map utf8EncodeChar).flatten) = some cs := by
  induction cs with
  | nil => intro fuel h; cases fuel <;> rfl
  | cons c cs ih =>
    intro fuel h
    simp only [List.map_cons, List.flatten_cons] at h ⊢
    have hlen := utf8EncodeChar_length_pos c
    rw [List.length_append] at h
    cases fuel with
    | zero => omega
    | succ f =>
      rw [utf8DecodeAux_encodeChar, ih f (by omega)]
      rfl

theorem utf8Decode_strBytes (s : String) : utf8Decode (strBytes s) = some s.data := by
  simp only [utf8Decode, strBytes]
  exact utf8DecodeAux_flatten s.data _ le_rfl

/-! ## Wire-format lemmas for the frame decoder -/

theorem string_mk_data (s : String) : String.mk s.data = s := rfl

theorem header_no_cr (c : Nat) (hc : c ≠ 13) (n : Nat) :
    ∀ b ∈ c :: natToDecimal n, b ≠ 13 := by
  intro b hb
  rcases List.mem_cons.mp hb with rfl | hb
  · exact hc
  · have := natToDecimal_mem n b hb
    omega

theorem bulkStringWire_cons (s : String) (X : List Nat) :
    bulkStringWire s ++ X =
      36 :: (natToDecimal (strBytes s).length ++ 13 :: 10 :: (strBytes s ++ 13 :: 10 :: X)) := by
  simp [bulkStringWire, List.append_assoc]

theorem bulkStringWire_length (s : String) :
    (bulkStringWire s).length = (natToDecimal (strBytes s).length).length + (strBytes s).length + 5 := by
  simp only [bulkStringWire, List.length_cons, List.length_append, List.length_nil]
  omega

theorem bulkStringWire_length_pos (s : String) : 0 < (bulkStringWire s).length := by
  rw [bulkStringWire_length]
  omega

theorem parse_bulk_string_len_header (n : Nat) (Z : List Nat) :
    parse_bulk_string_len (36 :: (natToDecimal n ++ 13 :: 10 :: Z)) =
      .ok (some (n, (natToDecimal n).length + 3)) := by
  have hshape : 36 :: (natToDecimal n ++ 13 :: 10 :: Z) =
      (36 :: natToDecimal n) ++ 13 :: 10 :: Z := by
    simp
  have hdl : 0 < (natToDecimal n).length := List.length_pos.mpr (natToDecimal_ne_nil n)
  rw [hshape]
  simp only [parse_bulk_string_len,
    read_till_crlf_clean _ _ (header_no_cr 36 (by omega) n), List.length_cons]
  rw [if_neg (by omega)]
  rw [if_neg (by omega)]
  rw [parse_usize_from_buf_natToDecimal]

theorem parse_array_len_header (n : Nat) (Z : List Nat) :
    parse_array_len (42 :: (natToDecimal n ++ 13 :: 10 :: Z)) =
      .ok (some (n, (natToDecimal n).length + 3)) := by
  have hshape : 42 :: (natToDecimal n ++ 13 :: 10 :: Z) =
      (42 :: natToDecimal n) ++ 13 :: 10 :: Z := by
    simp
  have hdl : 0 < (natToDecimal n).length := List.length_pos.mpr (natToDecimal_ne_nil n)
  rw [hshape]
  simp only [parse_array_len,
    read_till_crlf_clean _ _ (header_no_cr 42 (by omega) n), List.length_cons]
  rw [if_neg (by omega)]
  rw [if_neg (by omega)]
  rw [parse_usize_from_buf_natToDecimal]

theorem new_bulk_string_wire (s : String) (X : List Nat) :
    new_bulk_string
        (36 :: (natToDecimal (strBytes s).length ++ 13 :: 10 :: (strBytes s ++ 13 :: 10 :: X))) =
      .ok (.BulkString s, (bulkStringWire s).length) := by
  have hD : ∀ b ∈ natToDecimal (strBytes s).length, b ≠ 13 := by
    intro b hb
    have := natToDecimal_mem _ b hb
    omega
  simp only [new_bulk_string, List.drop_succ_cons, List.drop_zero,
    read_till_crlf_clean _ _ hD, parse_usize_from_buf_natToDecimal]
  rw [if_neg (by
    simp only [List.length_cons, List.length_append]
    omega)]
  have hdrop : (natToDecimal (strBytes s).length
        ++ 13 :: 10 :: (strBytes s ++ 13 :: 10 :: X)).drop
          ((natToDecimal (strBytes s).length).length + 2)
      = strBytes s ++ 13 :: 10 :: X := by
    have hshape : natToDecimal (strBytes s).length
        ++ 13 :: 10 :: (strBytes s ++ 13 :: 10 :: X)
        = (natToDecimal (strBytes s).length ++ [13, 10])
          ++ (strBytes s ++ 13 :: 10 :: X) := by
      simp
    have hlen : (natToDecimal (strBytes s).length ++ [13, 10]).length
        = (natToDecimal (strBytes s).length).length + 2 := by
      simp only [List.length_append, List.length_cons, List.length_nil]
    rw [hshape, ← hlen]
    exact List.drop_left _ _
  rw [hdrop]
  have htak : (strBytes s ++ 13 :: 10 :: X).take (strBytes s).length = strBytes s := by
    rw [List.take_append_of_le_length le_rfl, List.take_length]
  rw [htak, utf8Decode_strBytes]
  simp only [string_mk_data, Except.ok.injEq, Prod.mk.injEq, bulkStringWire_length]
  exact ⟨trivial, by omega⟩

theorem read_till_crlf_take_header (c : Nat) (hc : c ≠ 13) (n : Nat) (Z : List Nat) (j : Nat)
    (hj : j ≤ (natToDecimal n).length + 2) :
    read_till_crlf ((c :: (natToDecimal n ++ 13 :: 10 :: Z)).take j) = none := by
  rcases Nat.eq_zero_or_pos j with rfl | hjpos
  · rfl
  obtain ⟨m, rfl⟩ : ∃ m, j = m + 1 := ⟨j - 1, by omega⟩
  rw [List.take_succ_cons]
  by_cases hm : m ≤ (natToDecimal n).length
  · rw [List.take_append_of_le_length hm]
    apply read_till_crlf_none_no_cr
    intro b hb
    rcases List.mem_cons.mp hb with rfl | hb
    · exact hc
    · have := natToDecimal_mem n b (List.take_subset _ _ hb)
      omega
  · have hm2 : m = (natToDecimal n).length + 1 := by omega
    subst hm2
    rw [List.take_append]
    have h1 : (13 :: 10 :: Z).take 1 = [13] := rfl
    rw [h1]
    have h2 : c :: (natToDecimal n ++ [13]) = (c :: natToDecimal n) ++ [13] := by simp
    rw [h2]
    exact read_till_crlf_none_snoc_cr _ (header_no_cr c hc n)

theorem parse_bulk_string_len_read_none (src : List Nat)
    (h : read_till_crlf src = none) : parse_bulk_string_len src = .ok none := by
  simp only [parse_bulk_string_len, h]

theorem parse_array_len_read_none (src : List Nat)
    (h : read_till_crlf src = none) : parse_array_len src = .ok none := by
  simp only [parse_array_len, h]

theorem take_middle_header (n : Nat) (T : List Nat) (m : Nat)
    (hm : (natToDecimal n).length + 2 ≤ m) :
    (natToDecimal n ++ 13 :: 10 :: T).take m
      = natToDecimal n ++ 13 :: 10 :: T.take (m - (natToDecimal n).length - 2) := by
  obtain ⟨k, hk⟩ : ∃ k, m = (natToDecimal n).length + (k + 2) :=
    ⟨m - (natToDecimal n).length - 2, by omega⟩
  subst hk
  have harith : (natToDecimal n).length + (k + 2) - (natToDecimal n).length - 2 = k := by
    omega
  rw [harith, List.take_append]
  have h2 : (13 :: 10 :: T).take (k + 2) = 13 :: 10 :: T.take k := rfl
  rw [h2]

theorem bulkStringWire_shape (s : String) :
    bulkStringWire s =
      36 :: (natToDecimal (strBytes s).length ++ 13 :: 10 :: (strBytes s ++ [13, 10])) := by
  simp [bulkStringWire, List.append_assoc]

theorem decodeLoopAux_incomplete_bulk (cb : CommandBuilder) (fuel : Nat) (s : String) (j : Nat)
    (hj : j < (bulkStringWire s).length) :
    decodeLoopAux fuel cb ((bulkStringWire s).take j) =
      .ok (none, some cb, (bulkStringWire s).take j) := by
  rcases Nat.eq_zero_or_pos j with rfl | hjpos
  · simp [decodeLoopAux]
  obtain ⟨m, rfl⟩ : ∃ m, j = m + 1 := ⟨j - 1, by omega⟩
  rw [bulkStringWire_shape, List.take_succ_cons]
  cases fuel with
  | zero => rfl
  | succ f =>
    simp only [decodeLoopAux]
    by_cases hm : m + 1 ≤ (natToDecimal (strBytes s).length).length + 2
    · have hread := read_till_crlf_take_header 36 (by omega) (strBytes s).length
        (strBytes s ++ [13, 10]) (m + 1) hm
      rw [List.take_succ_cons] at hread
      rw [parse_bulk_string_len_read_none _ hread]
    · have hmid := take_middle_header (strBytes s).length (strBytes s ++ [13, 10]) m
        (by omega)
      rw [hmid]
      simp only [parse_bulk_string_len_header]
      rw [if_pos ?guard]
      case guard =>
        simp only [List.length_cons, List.length_append, List.length_take, List.length_cons,
          List.length_nil]
        have hlen := bulkStringWire_length s
        rw [bulkStringWire_length] at hj
        omega

theorem decodeLoopAux_step (f : Nat) (cb : CommandBuilder) (s : String) (X : List Nat) :
    decodeLoopAux (f + 1) cb (bulkStringWire s ++ X) =
      if cb.num_parts == cb.parts_parsed + 1
      then .ok (some (cb.parts ++ [RespType.BulkString s]), none, X)
      else decodeLoopAux f (cb.add_part (.BulkString s)) X := by
  rw [bulkStringWire_cons]
  simp only [decodeLoopAux, parse_bulk_string_len_header]
  rw [if_neg (by
    simp only [List.length_cons, List.length_append]
    omega)]
  simp only [new_bulk_string_wire]
  have hdrop : (36 :: (natToDecimal (strBytes s).length
        ++ 13 :: 10 :: (strBytes s ++ 13 :: 10 :: X))).drop (bulkStringWire s).length = X := by
    rw [← bulkStringWire_cons]
    exact List.drop_left _ _
  rw [hdrop]
  simp only [CommandBuilder.add_part, CommandBuilder.all_parts_received, CommandBuilder.build]

theorem decodeLoopAux_complete (parts : List String) :
    ∀ (cb : CommandBuilder) (fuel : Nat),
      parts ≠ [] →
      cb.parts_parsed + parts.length = cb.num_parts →
      ((parts.map bulkStringWire).flatten).length ≤ fuel →
      decodeLoopAux fuel cb ((parts.map bulkStringWire).flatten) =
        .ok (some (cb.parts ++ parts.map RespType.BulkString), none, []) := by
  induction parts with
  | nil => intro cb fuel h; exact absurd rfl h
  | cons s tl ih =>
    intro cb fuel _ hcount hfuel
    simp only [List.map_cons, List.flatten_cons] at hfuel ⊢
    have hBpos := bulkStringWire_length_pos s
    rw [List.length_append] at hfuel
    cases fuel with
    | zero => omega
    | succ f =>
      rw [decodeLoopAux_step]
      cases tl with
      | nil =>
        rw [if_pos (by
          simp only [List.length_cons, List.length_nil] at hcount
          exact beq_iff_eq.mpr (by omega))]
        simp
      | cons t ts =>
        rw [if_neg (by
          simp only [List.length_cons] at hcount
          simp only [beq_iff_eq]
          omega)]
        rw [ih (cb.add_part (.BulkString s)) f (by simp)
          (by
            simp only [CommandBuilder.add_part, List.length_cons] at hcount ⊢
            omega)
          (by omega)]
        simp [CommandBuilder.add_part, List.append_assoc]

theorem decodeLoopAux_incomplete (parts : List String) :
    ∀ (cb : CommandBuilder) (fuel j : Nat),
      parts ≠ [] →
      cb.parts_parsed + parts.length = cb.num_parts →
      j < ((parts.map bulkStringWire).flatten).length →
      j ≤ fuel →
      ∃ (cb2 : CommandBuilder) (R : List Nat) (rem : List String),
        decodeLoopAux fuel cb (((parts.map bulkStringWire).flatten).take j) =
          .ok (none, some cb2, R) ∧
        rem ≠ [] ∧
        cb2.parts_parsed + rem.length = cb2.num_parts ∧
        cb2.num_parts = cb.num_parts ∧
        cb2.parts ++ rem.map RespType.BulkString = cb.parts ++ parts.map RespType.BulkString ∧
        R ++ ((parts.map bulkStringWire).flatten).drop j = (rem.map bulkStringWire).flatten := by
  induction parts with
  | nil => intro cb fuel j h; exact absurd rfl h
  | cons s tl ih =>
    intro cb fuel j _ hcount hj hjf
    simp only [List.map_cons, List.flatten_cons] at hj ⊢
    by_cases hsplit : j < (bulkStringWire s).length
    · have htake : (bulkStringWire s ++ (tl.map bulkStringWire).flatten).take j
          = (bulkStringWire s).take j :=
        List.take_append_of_le_length (by omega)
      have hdrop : (bulkStringWire s ++ (tl.map bulkStringWire).flatten).drop j
          = (bulkStringWire s).drop j ++ (tl.map bulkStringWire).flatten :=
        List.drop_append_of_le_length (by omega)
      refine ⟨cb, (bulkStringWire s).take j, s :: tl, ?_, by simp, hcount, rfl, rfl, ?_⟩
      · rw [htake]
        exact decodeLoopAux_incomplete_bulk cb fuel s j hsplit
      · rw [hdrop, ← List.append_assoc, List.take_append_drop]
        simp [List.flatten_cons]
    · push_neg at hsplit
      have htake : (bulkStringWire s ++ (tl.map bulkStringWire).flatten).take j
          = bulkStringWire s ++ ((tl.map bulkStringWire).flatten).take
              (j - (bulkStringWire s).length) := by
        rw [List.take_append_eq_append_take, List.take_of_length_le hsplit]
      have hdropj : (bulkStringWire s ++ (tl.map bulkStringWire).flatten).drop j
          = ((tl.map bulkStringWire).flatten).drop (j - (bulkStringWire s).length) := by
        rw [List.drop_append_eq_append_drop, List.drop_of_length_le hsplit]
        simp
      have hBpos := bulkStringWire_length_pos s
      cases tl with
      | nil =>
        simp only [List.map_nil, List.flatten_nil, List.length_append, List.length_nil] at hj
        omega
      | cons t ts =>
        cases fuel with
        | zero => omega
        | succ f =>
          rw [htake, decodeLoopAux_step]
          rw [if_neg (by
            simp only [List.length_cons] at hcount
            simp only [beq_iff_eq]
            omega)]
          obtain ⟨cb2, R, rem, h1, h2, h3, h4, h5, h6⟩ :=
            ih (cb.add_part (.BulkString s)) f (j - (bulkStringWire s).length)
              (by simp)
              (by
                simp only [CommandBuilder.add_part, List.length_cons] at hcount ⊢
                omega)
              (by
                rw [List.length_append] at hj
                omega)
              (by omega)
          refine ⟨cb2, R, rem, h1, h2, h3, ?_, ?_, ?_⟩
          · rw [h4]
            simp [CommandBuilder.add_part]
          · rw [h5]
            simp [CommandBuilder.add_part, List.append_assoc]
          · rw [hdropj, h6]

theorem encodeCommandFrame_cons (parts : List String) :
    encodeCommandFrame parts =
      42 :: (natToDecimal parts.length ++ 13 :: 10 :: (parts.map bulkStringWire).flatten) := by
  simp [encodeCommandFrame, List.append_assoc]

theorem drop_header_cons (c n : Nat) (T : List Nat) :
    (c :: (natToDecimal n ++ 13 :: 10 :: T)).drop ((natToDecimal n).length + 3) = T := by
  have hshape : c :: (natToDecimal n ++ 13 :: 10 :: T)
      = (c :: natToDecimal n ++ [13, 10]) ++ T := by
    simp
  have hlen : (c :: natToDecimal n ++ [13, 10]).length = (natToDecimal n).length + 3 := by
    simp only [List.length_cons, List.length_append, List.length_nil]
  rw [hshape, ← hlen]
  exact List.drop_left _ _

theorem decode_complete (parts : List String) (hne : parts ≠ []) :
    decode none (encodeCommandFrame parts) =
      .ok (some (parts.map RespType.BulkString), none, []) := by
  rw [encodeCommandFrame_cons]
  simp only [decode, parse_array_len_header, drop_header_cons]
  rw [decodeLoopAux_complete parts (CommandBuilder.new parts.length) _ hne
    (by simp [CommandBuilder.new])
    (by
      simp only [List.length_cons, List.length_append]
      omega)]
  simp [CommandBuilder.new]

/-- C5: for every complete command frame (an array of one or more bulk
strings) and every byte offset splitting its grammar-encoded bytes into two
halves, feeding the two halves to the frame decoder in two successive calls
yields the same decoded frame as feeding all the bytes in one call; the
first call on the incomplete prefix reports no frame (not an error) and
hands back the bytes of any incompletely received bulk string unconsumed,
so the second call resumes exactly where the first stopped. -/
theorem frame_decoder_split_resilient (parts : List String) (i : Nat)
    (hne : parts ≠ []) (hi : i < (encodeCommandFrame parts).length) :
    ∃ (st : Option CommandBuilder) (R : List Nat),
      decode none ((encodeCommandFrame parts).take i) = .ok (none, st, R) ∧
      decode st (R ++ (encodeCommandFrame parts).drop i) =
        .ok (some (parts.map RespType.BulkString), none, []) ∧
      decode none (encodeCommandFrame parts) =
        .ok (some (parts.map RespType.BulkString), none, []) := by
  have hcomp := decode_complete parts hne
  have hdl : 0 < (natToDecimal parts.length).length :=
    List.length_pos.mpr (natToDecimal_ne_nil _)
  by_cases hsplit : i < (natToDecimal parts.length).length + 3
  · refine ⟨none, (encodeCommandFrame parts).take i, ?_, ?_, hcomp⟩
    · rw [encodeCommandFrame_cons]
      have hread : read_till_crlf ((42 :: (natToDecimal parts.length
          ++ 13 :: 10 :: (parts.map bulkStringWire).flatten)).take i) = none :=
        read_till_crlf_take_header 42 (by omega) _ _ i (by omega)
      simp only [decode, parse_array_len_read_none _ hread]
    · rw [List.take_append_drop]
      exact hcomp
  · push_neg at hsplit
    have hlenF : (encodeCommandFrame parts).length
        = (natToDecimal parts.length).length + 3
          + ((parts.map bulkStringWire).flatten).length := by
      rw [encodeCommandFrame_cons]
      simp only [List.length_cons, List.length_append]
      omega
    obtain ⟨m, rfl⟩ : ∃ m, i = m + 1 := ⟨i - 1, by omega⟩
    have harith : m - (natToDecimal parts.length).length - 2
        = m + 1 - ((natToDecimal parts.length).length + 3) := by omega
    have htake : (encodeCommandFrame parts).take (m + 1)
        = 42 :: (natToDecimal parts.length ++ 13 :: 10 ::
            ((parts.map bulkStringWire).flatten).take
              (m + 1 - ((natToDecimal parts.length).length + 3))) := by
      rw [encodeCommandFrame_cons, List.take_succ_cons,
        take_middle_header _ _ _ (by omega), harith]
    have hdropF : (encodeCommandFrame parts).drop (m + 1)
        = ((parts.map bulkStringWire).flatten).drop
            (m + 1 - ((natToDecimal parts.length).length + 3)) := by
      rw [encodeCommandFrame_cons]
      have hshape : 42 :: (natToDecimal parts.length
            ++ 13 :: 10 :: (parts.map bulkStringWire).flatten)
          = (42 :: natToDecimal parts.length ++ [13, 10])
            ++ (parts.map bulkStringWire).flatten := by
        simp
      have hlen : (42 :: natToDecimal parts.length ++ [13, 10]).length
          = (natToDecimal parts.length).length + 3 := by
        simp only [List.length_cons, List.length_append, List.length_nil]
      rw [hshape, List.drop_append_eq_append_drop,
        List.drop_of_length_le (by rw [hlen]; omega), hlen]
      simp
    obtain ⟨cb2, R, rem, h1, h2, h3, h4, h5, h6⟩ :=
      decodeLoopAux_incomplete parts (CommandBuilder.new parts.length)
        ((42 :: (natToDecimal parts.length ++ 13 :: 10 ::
            ((parts.map bulkStringWire).flatten).take
              (m + 1 - ((natToDecimal parts.length).length + 3)))).length)
        (m + 1 - ((natToDecimal parts.length).length + 3))
        hne (by simp [CommandBuilder.new]) (by omega)
        (by
          simp only [List.length_cons, List.length_append, List.length_take]
          omega)
    refine ⟨some cb2, R, ?_, ?_, hcomp⟩
    · rw [htake]
      simp only [decode, parse_array_len_header, drop_header_cons]
      exact h1
    · rw [hdropF, h6]
      simp only [decode]
      rw [decodeLoopAux_complete rem cb2 _ h2 h3 le_rfl, h5]
      simp [CommandBuilder.new]

theorem frame_decoder_split_resilient_witness :
    ∃ (st : Option CommandBuilder) (R : List Nat),
      decode none ((encodeCommandFrame ["GET", "k"]).take 7) = .ok (none, st, R) ∧
      decode st (R ++ (encodeCommandFrame ["GET", "k"]).drop 7) =
        .ok (some (["GET", "k"].map RespType.BulkString), none, []) ∧
      decode none (encodeCommandFrame ["GET", "k"]) =
        .ok (some (["GET", "k"].map RespType.BulkString), none, []) :=
  frame_decoder_split_resilient ["GET", "k"] 7 (by decide) (by decide)

/-! ## Storage-engine lemmas -/

theorem get_snd (k : String) (m : Store) : (DB.get k m).2 = m := by
  simp only [DB.get]
  cases hm : m k with
  | none => rfl
  | some e => cases hv : e.value <;> simp [hv]

theorem lrange_snd (k : String) (a b : Int) (m : Store) : (DB.lrange k a b m).2 = m := by
  simp only [DB.lrange]
  cases hm : m k with
  | none => rfl
  | some e => cases hv : e.value <;> simp [hv]

theorem round_list_index_eq_spec (L : Nat) (i : Int) (hL : 1 ≤ L) (hL64 : L < 2 ^ 64) :
    DB.round_list_index (L : Int) i = roundIndexSpec L i := by
  have hpow : (2 : Int) ^ 64 = 18446744073709551616 := by norm_num
  have hpow2 : (2 : Nat) ^ 64 = 18446744073709551616 := by norm_num
  rw [hpow2] at hL64
  simp only [DB.round_list_index, roundIndexSpec, intAsUsize, hpow]
  split_ifs <;> omega

/-- C4: for a key holding a list of length at least 1 and any signed start
and stop, `DB::lrange` returns exactly what the claim describes: empty when
raw stop < start, otherwise the inclusive slice, empty slice or singleton
determined by the independently rounded indices (negative i to L - |i|
clamped at 0, an index at least L to L - 1).  The list is bounded by the
`usize` width as every Rust collection is. -/
theorem lrange_index_resolution (m : Store) (k : String) (l : List String) (S E : Int)
    (hk : m k = some (Entry.new (.List l))) (hlen : 1 ≤ l.length)
    (hlen64 : l.length < 2 ^ 64) :
    DB.lrange k S E m = (.ok (lrangeSpecSlice l S E), m) := by
  simp only [DB.lrange, hk, Entry.new]
  simp only [DB.round_list_indices, lrangeSpecSlice,
    round_list_index_eq_spec l.length S hlen hlen64,
    round_list_index_eq_spec l.length E hlen hlen64]
  split_ifs with h1 h2 h3
  · simp
  · have harith : roundIndexSpec l.length E + 1 - roundIndexSpec l.length S
        = roundIndexSpec l.length E - roundIndexSpec l.length S + 1 := by omega
    rw [harith]
  · simp
  · have harith : roundIndexSpec l.length S + 1 - roundIndexSpec l.length S = 1 := by omega
    rw [harith]

theorem lrange_index_resolution_witness :
    DB.lrange "k" (-2) (-1)
        (storeInsert emptyStore "k" (Entry.new (.List ["v1", "v2", "v3", "v4", "v5"])))
      = (.ok (lrangeSpecSlice ["v1", "v2", "v3", "v4", "v5"] (-2) (-1)),
          storeInsert emptyStore "k" (Entry.new (.List ["v1", "v2", "v3", "v4", "v5"]))) :=
  lrange_index_resolution _ "k" ["v1", "v2", "v3", "v4", "v5"] (-2) (-1) rfl
    (by decide) (by decide)

/-- C6: `DB::set` on a key holding a List, and `DB::lpush`/`DB::rpush` on a
key holding a String, fail with the WrongType error — whose display form
carries the fixed prefix WRONGTYPE — and return the store unchanged. -/
theorem wrongtype_no_mutation (m : Store) (k : String) :
    (∀ (l : List String) (v : Value),
      m k = some (Entry.new (.List l)) → DB.set k v m = (.error .WrongType, m)) ∧
    (∀ (s : String) (vs : List String),
      m k = some (Entry.new (.String s)) →
        DB.lpush k vs m = (.error .WrongType, m) ∧
        DB.rpush k vs m = (.error .WrongType, m)) ∧
    (DBError.toMessage .WrongType).data.take 9 = "WRONGTYPE".data := by
  refine ⟨?_, ?_, by decide⟩
  · intro l v hk
    simp [DB.set, hk, Entry.new]
  · intro s vs hk
    constructor
    · simp [DB.lpush, hk, Entry.new]
    · simp [DB.rpush, hk, Entry.new]

theorem wrongtype_no_mutation_witness :
    DB.set "k" (.String "x") (storeInsert emptyStore "k" (Entry.new (.List ["a"])))
      = (.error .WrongType, storeInsert emptyStore "k" (Entry.new (.List ["a"]))) ∧
    DB.lpush "q" ["b"] (storeInsert emptyStore "q" (Entry.new (.String "s")))
      = (.error .WrongType, storeInsert emptyStore "q" (Entry.new (.String "s"))) :=
  ⟨(wrongtype_no_mutation _ "k").1 ["a"] (.String "x") rfl,
    ((wrongtype_no_mutation _ "q").2.1 "s" ["b"] rfl).1⟩

/-- C7: `Get::apply` returns BulkString(v) when the key holds String v,
NullBulkString when the key is absent, and the type-mismatch SimpleError
when the key holds a List. -/
theorem get_semantics (m : Store) (k : String) :
    (m k = none → Get.apply k m = (.NullBulkString, m)) ∧
    (∀ v : String, m k = some (Entry.new (.String v)) →
      Get.apply k m = (.BulkString v, m)) ∧
    (∀ l : List String, m k = some (Entry.new (.List l)) →
      Get.apply k m = (.SimpleError (DBError.toMessage .WrongType), m)) := by
  refine ⟨?_, ?_, ?_⟩
  · intro hk
    simp [Get.apply, DB.get, hk]
  · intro v hk
    simp [Get.apply, DB.get, hk, Entry.new]
  · intro l hk
    simp [Get.apply, DB.get, hk, Entry.new]

theorem get_semantics_witness :
    Get.apply "a" emptyStore = (.NullBulkString, emptyStore) ∧
    Get.apply "k" (storeInsert emptyStore "k" (Entry.new (.String "v")))
      = (.BulkString "v", storeInsert emptyStore "k" (Entry.new (.String "v"))) ∧
    Get.apply "q" (storeInsert emptyStore "q" (Entry.new (.List ["x"])))
      = (.SimpleError (DBError.toMessage .WrongType),
          storeInsert emptyStore "q" (Entry.new (.List ["x"]))) :=
  ⟨(get_semantics emptyStore "a").1 rfl,
    (get_semantics _ "k").2.1 "v" rfl,
    (get_semantics _ "q").2.2 ["x"] rfl⟩

/-- C10: `DB::get` and `DB::lrange` never mutate the store: whatever the
key holds (value, nothing, or the wrong type), the map handed back is the
map passed in. -/
theorem get_lrange_no_mutation (m : Store) (k : String) (a b : Int) :
    (DB.get k m).2 = m ∧ (DB.lrange k a b m).2 = m :=
  ⟨get_snd k m, lrange_snd k a b m⟩

/-! ## Reachable-store invariant and command-layer lemmas -/

theorem foldl_push_front (v : List String) :
    ∀ l : List String, v.foldl (fun acc x => x :: acc) l = v.reverse ++ l := by
  induction v with
  | nil => intro l; rfl
  | cons x xs ih =>
    intro l
    simp only [List.foldl_cons, List.reverse_cons, ih (x :: l), List.append_assoc,
      List.singleton_append]

theorem foldl_push_back (v : List String) :
    ∀ l : List String, v.foldl (fun acc x => acc ++ [x]) l = l ++ v := by
  induction v with
  | nil => intro l; simp
  | cons x xs ih =>
    intro l
    simp only [List.foldl_cons, ih (l ++ [x]), List.append_assoc, List.singleton_append]

theorem parseBulkStringValues_length (args : List RespType) :
    ∀ vs : List String, parseBulkStringValues args = .ok vs → vs.length = args.length := by
  induction args with
  | nil =>
    intro vs h
    simp only [parseBulkStringValues, Except.ok.injEq] at h
    subst h
    rfl
  | cons a rest ih =>
    intro vs h
    rcases a with s | v | _ | arr | es | i
    · simp [parseBulkStringValues] at h
    · simp only [parseBulkStringValues] at h
      cases hrec : parseBulkStringValues rest with
      | ok vs2 =>
        rw [hrec] at h
        simp only [Except.ok.injEq] at h
        subst h
        simp [ih vs2 hrec]
      | error e =>
        rw [hrec] at h
        simp at h
    · simp [parseBulkStringValues] at h
    · simp [parseBulkStringValues] at h
    · simp [parseBulkStringValues] at h
    · simp [parseBulkStringValues] at h

theorem lpush_with_args_values_ne_nil (args : List RespType) (c : LPush)
    (h : LPush.with_args args = .ok c) : c.values ≠ [] := by
  simp only [LPush.with_args] at h
  by_cases harity : args.length < 2
  · rw [if_pos harity] at h
    simp at h
  · rw [if_neg harity] at h
    cases args with
    | nil => simp at h
    | cons a rest =>
      rcases a with s | v | _ | arr | es | i
      · simp at h
      · simp only at h
        cases hrec : parseBulkStringValues rest with
        | ok vs =>
          rw [hrec] at h
          simp only [Except.ok.injEq] at h
          subst h
          have hlen := parseBulkStringValues_length rest vs hrec
          simp only [List.length_cons, Nat.not_lt] at harity
          intro hnil
          have hnil2 : vs = [] := hnil
          rw [hnil2] at hlen
          simp at hlen
          omega
        | error e =>
          rw [hrec] at h
          simp at h
      · simp at h
      · simp at h
      · simp at h
      · simp at h

theorem reachable_lists_nonempty (m : Store) (h : Reachable m) :
    ∀ (k : String) (l : List String), m k = some (Entry.new (.List l)) → 1 ≤ l.length := by
  induction h with
  | empty =>
    intro k l hk
    simp [emptyStore] at hk
  | set m0 k0 s0 _ ih =>
    intro k l hk
    cases hm : m0 k0 with
    | none =>
      simp only [DB.set, hm, storeInsert] at hk
      by_cases hkk : k = k0
      · rw [if_pos hkk] at hk
        simp [Entry.new] at hk
      · rw [if_neg hkk] at hk
        exact ih k l hk
    | some e =>
      obtain ⟨v⟩ := e
      cases v with
      | String s =>
        simp only [DB.set, hm, storeInsert] at hk
        by_cases hkk : k = k0
        · rw [if_pos hkk] at hk
          simp [Entry.new] at hk
        · rw [if_neg hkk] at hk
          exact ih k l hk
      | List l0 =>
        simp only [DB.set, hm] at hk
        exact ih k l hk
  | lpush m0 k0 vs hvs _ ih =>
    intro k l hk
    cases hm : m0 k0 with
    | none =>
      simp only [DB.lpush, hm, storeInsert] at hk
      by_cases hkk : k = k0
      · rw [if_pos hkk] at hk
        simp only [Option.some.injEq] at hk
        have h2 := congrArg Entry.value hk
        simp only [Entry.new, Value.List.injEq] at h2
        subst h2
        exact List.length_pos.mpr hvs
      · rw [if_neg hkk] at hk
        exact ih k l hk
    | some e =>
      obtain ⟨v⟩ := e
      cases v with
      | String s =>
        simp only [DB.lpush, hm] at hk
        exact ih k l hk
      | List l0 =>
        simp only [DB.lpush, hm, storeInsert] at hk
        by_cases hkk : k = k0
        · rw [if_pos hkk] at hk
          simp only [Option.some.injEq] at hk
          have h2 := congrArg Entry.value hk
          simp only [Entry.new, Value.List.injEq] at h2
          rw [← h2, foldl_push_front]
          simp only [List.length_append, List.length_reverse]
          have hvp : 0 < vs.length := List.length_pos.mpr hvs
          omega
        · rw [if_neg hkk] at hk
          exact ih k l hk
  | rpush m0 k0 vs hvs _ ih =>
    intro k l hk
    cases hm : m0 k0 with
    | none =>
      simp only [DB.rpush, hm, storeInsert] at hk
      by_cases hkk : k = k0
      · rw [if_pos hkk] at hk
        simp only [Option.some.injEq] at hk
        have h2 := congrArg Entry.value hk
        simp only [Entry.new, Value.List.injEq] at h2
        subst h2
        exact List.length_pos.mpr hvs
      · rw [if_neg hkk] at hk
        exact ih k l hk
    | some e =>
      obtain ⟨v⟩ := e
      cases v with
      | String s =>
        simp only [DB.rpush, hm] at hk
        exact ih k l hk
      | List l0 =>
        simp only [DB.rpush, hm, storeInsert] at hk
        by_cases hkk : k = k0
        · rw [if_pos hkk] at hk
          simp only [Option.some.injEq] at hk
          have h2 := congrArg Entry.value hk
          simp only [Entry.new, Value.List.injEq] at h2
          rw [← h2, foldl_push_back]
          simp only [List.length_append]
          have hvp : 0 < vs.length := List.length_pos.mpr hvs
          omega
        · rw [if_neg hkk] at hk
          exact ih k l hk
  | get m0 k0 _ ih =>
    intro k l hk
    rw [get_snd] at hk
    exact ih k l hk
  | lrange m0 k0 a b _ ih =>
    intro k l hk
    rw [lrange_snd] at hk
    exact ih k l hk

/-- C8: every List stored in a reachable engine state is nonempty — the
LPUSH/RPUSH argument parser demands at least one value, a new list is seeded
with those values, pushes only add, and no operation removes — so the
`list_len - 1` computation inside the index rounding never runs on an empty
list. -/
theorem stored_lists_never_empty :
    (∀ (args : List RespType) (c : LPush), LPush.with_args args = .ok c → c.values ≠ []) ∧
    (∀ m : Store, Reachable m →
      ∀ (k : String) (l : List String), m k = some (Entry.new (.List l)) → 1 ≤ l.length) :=
  ⟨lpush_with_args_values_ne_nil, fun m h => reachable_lists_nonempty m h⟩

theorem stored_lists_never_empty_witness :
    (["a"] : List String) ≠ [] ∧ 1 ≤ (["a"] : List String).length :=
  ⟨stored_lists_never_empty.1 [.BulkString "k", .BulkString "a"] ⟨"k", ["a"]⟩ rfl,
    stored_lists_never_empty.2 _
      (Reachable.lpush emptyStore "k" ["a"] (by decide) Reachable.empty) "k" ["a"] rfl⟩

/-! ## Claim theorems on the codec bugs and the zero-length header -/

/-- C1 (the code violates the claim): the `BulkString` arm of `to_bytes`
derives its length header from the character count, not the byte count.
For the one-character, two-byte string composed of the single code point
233, the emitted header digit is 1 (byte 49) while the payload occupies the
two bytes 195 and 169; the byte-length form the claim (and the wire grammar)
demands would carry the digit 2. -/
theorem bulkstring_encode_counts_chars :
    RespType.to_bytes (.BulkString "é") = [36, 49, 13, 10, 195, 169, 13, 10] ∧
    (strBytes "é").length = 2 ∧
    natToDecimal (strBytes "é").length = [50] ∧
    RespType.to_bytes (.BulkString "é") ≠ bulkStringWire "é" := by
  exact ⟨rfl, rfl, rfl, by decide⟩

/-- C3 (the code violates the claim): decode(encode(V)) fails on the
grammar-constructible value BulkString "é": the character-count length header
makes the decoder slice a single byte of the two-byte payload, which is not
valid UTF-8, so `new_bulk_string` errors instead of returning the value.
With the grammar's byte-length wire form the same decoder round-trips the
same string, isolating the fault to the encoder. -/
theorem bulkstring_roundtrip_fails_nonascii :
    new_bulk_string (RespType.to_bytes (.BulkString "é")) =
      .error (.InvalidBulkString "Bulk string value is not a valid UTF-8 string") ∧
    new_bulk_string (bulkStringWire "é") = .ok (.BulkString "é", 8) := by
  exact ⟨rfl, rfl⟩

/-- C2 (the code violates the claim): `LPUSH k a b c` on an absent key seeds
the stored list as [a, b, c] in argument order (`VecDeque::from`, no pushes
to the head), so the last pushed value is NOT at index 0; and the following
`LRANGE k 0 -1` returns the empty sequence because `round_list_indices`
compares the raw indices (-1 < 0) before any negative-index resolution —
not [c, b, a]. -/
theorem lpush_lrange_order_counterexample :
    (DB.lpush "k" ["a", "b", "c"] emptyStore).1 = .ok 3 ∧
    ((DB.lpush "k" ["a", "b", "c"] emptyStore).2) "k"
      = some (Entry.new (.List ["a", "b", "c"])) ∧
    (DB.lrange "k" 0 (-1) (DB.lpush "k" ["a", "b", "c"] emptyStore).2).1 = .ok [] := by
  exact ⟨rfl, rfl, rfl⟩

/-- C9: an array header announcing zero elements is consumed but never
emits a frame: the zero-part builder survives the call, and every bulk
string arriving afterwards is absorbed into it (the received-parts count can
never equal the expected zero after an append), so the command never
completes. -/
theorem zero_length_array_never_emits :
    decode none [42, 48, 13, 10] = .ok (none, some (CommandBuilder.new 0), []) ∧
    (∀ (s : String) (ps : List RespType) (n : Nat),
      decode (some ⟨ps, 0, n⟩) (bulkStringWire s) =
        .ok (none, some ⟨ps ++ [RespType.BulkString s], 0, n + 1⟩, [])) := by
  refine ⟨rfl, ?_⟩
  intro s ps n
  simp only [decode]
  have hlen := bulkStringWire_length_pos s
  obtain ⟨f, hf⟩ : ∃ f, (bulkStringWire s).length = f + 1 :=
    ⟨(bulkStringWire s).length - 1, by omega⟩
  rw [hf]
  have hstep := decodeLoopAux_step f ⟨ps, 0, n⟩ s []
  rw [List.append_nil] at hstep
  rw [hstep]
  rw [if_neg (by simp)]
  simp [CommandBuilder.add_part, decodeLoopAux]

end MuDB
